import Mathlib

/-!
Verification of an arithmetic-expression evaluator (lexer, precedence-climbing
parser, tree evaluator).

Modelling conventions, used throughout this development:

* Rust `f64` values are modelled as exact rationals (`ℚ`).  Every numeric value
  appearing in the verified statements is exactly representable as a binary64
  float, and every arithmetic step performed on such inputs by the program is
  exact, so the rational model agrees with the float computation on all inputs
  considered here.  Float-specific rounding, infinities and NaN are outside the
  model.
* `f64::powf` is modelled exactly for integer exponents (`powQ`); non-integer
  exponents are outside the rational model.
* The Rust cast `f64 as i64` is modelled by `f64ToI64`: truncation toward zero
  followed by saturation to the `i64` range, which is the defined behaviour of
  Rust float-to-integer casts.  Bitwise `&`/`|` on `i64` are modelled on the
  64-bit two's-complement bit pattern (`i64Land`, `i64Lor`).  The back-cast
  `i64 as f64` is modelled by `i64ToF64`: rounding to the nearest
  binary64-representable value, ties to even (`roundNat53`), exact for
  magnitudes up to `2^53` — e.g. `i64::MAX as f64` is `2^63`, not `2^63 - 1`.
* Rust `str::parse::<f64>` applied to the digit/dot strings accumulated by the
  tokenizer is modelled by `ratOfNumStr` (exact decimal value; fails exactly
  when the string has more than one dot or no digit, as the float parser does
  on this alphabet).
* The mutually recursive parser methods `generate_ast`, `parse_number`,
  `convert_token_to_node` and the `while` loop inside `generate_ast` are
  embedded as a single fuel-indexed function `run` over a request type `Call`;
  fuel exhaustion is the `none` result, and `pipeline_terminates_C9` shows the
  fuel supplied by `evaluate` always suffices.
* Debug formatting of tokens (`tokenDebug`) mirrors the derived Rust `Debug`
  names; the float payload of `Num` is rendered as a rational, which is
  irrelevant to every property proved here.
-/

unseal Rat.add Rat.sub Rat.mul Rat.inv

namespace Pass

/-- Decidable equality for `Except`, needed to state and decide concrete
equations about results of the pipeline. -/
instance {ε α : Type} [DecidableEq ε] [DecidableEq α] : DecidableEq (Except ε α) :=
  fun x y =>
    match x, y with
    | .error a, .error b => decidable_of_iff (a = b) (by simp)
    | .error _, .ok _ => .isFalse (by simp)
    | .ok _, .error _ => .isFalse (by simp)
    | .ok a, .ok b => decidable_of_iff (a = b) (by simp)

/-- Tokens produced by the tokenizer (src/token.rs, `enum Token`). -/
inductive Token where
  | And
  | Or
  | Add
  | Subtract
  | Multiply
  | Divide
  | Caret
  | LeftParen
  | RightParen
  | Num (value : ℚ)
  | EOF
deriving DecidableEq

/-- Operator precedence levels, lowest to highest (src/token.rs, `enum OperPrec`). -/
inductive OperPrec where
  | DefaultZero
  | Bitwise
  | AddSub
  | MulDiv
  | Exponent
  | Negative
deriving DecidableEq

/-- Rank of a precedence level in declaration order; the Rust code compares
`OperPrec` values with the derived `PartialOrd`, which orders constructors by
declaration order. -/
def OperPrec.rank : OperPrec → ℕ
  | .DefaultZero => 0
  | .Bitwise => 1
  | .AddSub => 2
  | .MulDiv => 3
  | .Exponent => 4
  | .Negative => 5

/-- `Token::get_oper_prec` (src/token.rs). -/
def Token.getOperPrec : Token → OperPrec
  | .And | .Or => .Bitwise
  | .Add | .Subtract => .AddSub
  | .Multiply | .Divide => .MulDiv
  | .Caret => .Exponent
  | _ => .DefaultZero

/-- The character class of the Rust pattern `'0'..='9'`. -/
def isDigitChar (c : Char) : Bool := '0' ≤ c && c ≤ '9'

/-- The guard `next.is_ascii_digit() || next == '.'` used by the tokenizer's
number scanner (src/tokenizer.rs, `parse_number`). -/
def isDigitDot (c : Char) : Bool := isDigitChar c || c = '.'

/-- Value of a digit string, most significant digit first. -/
def digitsVal (l : List Char) : ℕ :=
  l.foldl (fun a c => 10 * a + (c.toNat - 48)) 0

/-- Model of Rust `str::parse::<f64>` on the strings the tokenizer accumulates
(a digit followed by digits and dots): it succeeds exactly when the string has
at most one dot and at least one digit, and the value is the exact decimal
value, represented as a rational. -/
def ratOfNumStr (s : List Char) : Option ℚ :=
  if s.all isDigitDot && s.count '.' ≤ 1 && s.any isDigitChar then
    let ip := s.takeWhile isDigitChar
    let fp := (s.dropWhile isDigitChar).drop 1
    some ((digitsVal ip : ℚ) + (digitsVal fp : ℚ) / (10 : ℚ) ^ fp.length)
  else none

/-- `Tokenizer::parse_number` (src/tokenizer.rs): greedily extend the literal
with digits and dots, then parse it as a float; a failed parse yields no
token.  Returns the token (if any) and the remaining characters. -/
def tokParseNumber (first : Char) (rest : List Char) : Option Token × List Char :=
  let numStr := first :: rest.takeWhile isDigitDot
  let r := rest.dropWhile isDigitDot
  match ratOfNumStr numStr with
  | some v => (some (Token.Num v), r)
  | none => (none, r)

/-- One step of the lexer, `<Tokenizer as Iterator>::next` (src/tokenizer.rs):
returns the produced item (`some` token, or `none` for an unrecognized
character) together with the remaining input.  Exhausted input yields
`some Token.EOF` and stays exhausted. -/
def tokenizerNext : List Char → Option Token × List Char
  | [] => (some Token.EOF, [])
  | c :: rest =>
    if isDigitChar c then tokParseNumber c rest
    else if c = '+' then (some Token.Add, rest)
    else if c = '-' then (some Token.Subtract, rest)
    else if c = '*' then (some Token.Multiply, rest)
    else if c = '/' then (some Token.Divide, rest)
    else if c = '^' then (some Token.Caret, rest)
    else if c = '&' then (some Token.And, rest)
    else if c = '|' then (some Token.Or, rest)
    else if c = '(' then (some Token.LeftParen, rest)
    else if c = ')' then (some Token.RightParen, rest)
    else if c = ' ' || c = '\t' || c = '\n' then tokenizerNext rest
    else (none, rest)

/-- AST nodes (src/ast.rs, `enum Node`). -/
inductive Node where
  | And (a b : Node)
  | Or (a b : Node)
  | Add (a b : Node)
  | Subtract (a b : Node)
  | Multiply (a b : Node)
  | Divide (a b : Node)
  | Caret (a b : Node)
  | Negative (a : Node)
  | Number (v : ℚ)
deriving DecidableEq

/-- Model of `f64::powf` on the rational carrier: exact for integer exponents;
non-integer exponents are outside the rational model of `f64`. -/
def powQ (a b : ℚ) : ℚ :=
  if b.den = 1 then
    if 0 ≤ b.num then a ^ b.num.toNat else (a ^ (-b.num).toNat)⁻¹
  else 0

/-- Truncation of a rational toward zero (the integral part of an `f64`). -/
def truncQ (q : ℚ) : ℤ := q.num.tdiv q.den

/-- Model of the Rust cast `f64 as i64`: truncate toward zero, saturating at
the bounds of the `i64` range. -/
def f64ToI64 (q : ℚ) : ℤ := max (-(2 ^ 63)) (min (2 ^ 63 - 1) (truncQ q))

/-- Two's-complement 64-bit pattern of an `i64` value. -/
def toBits64 (v : ℤ) : ℕ := (v % (2 ^ 64 : ℤ)).toNat

/-- `i64` value of a 64-bit two's-complement pattern. -/
def ofBits64 (n : ℕ) : ℤ := if n < 2 ^ 63 then (n : ℤ) else (n : ℤ) - 2 ^ 64

/-- Bitwise AND on `i64` values via the 64-bit pattern. -/
def i64Land (x y : ℤ) : ℤ := ofBits64 (Nat.land (toBits64 x) (toBits64 y))

/-- Bitwise OR on `i64` values via the 64-bit pattern. -/
def i64Lor (x y : ℤ) : ℤ := ofBits64 (Nat.lor (toBits64 x) (toBits64 y))

/-- Fuel-bounded floor of the binary logarithm (the fuel 64 used below covers
every `i64` magnitude). -/
def log2Fuel : ℕ → ℕ → ℕ
  | 0, _ => 0
  | f + 1, n => if n < 2 then 0 else log2Fuel f (n / 2) + 1

/-- Round a natural number to the nearest binary64-representable value
(53-bit significand), ties to even — the rounding performed by the Rust cast
`i64 as f64` on magnitudes above `2^53`.  Exact at or below `2^53`. -/
def roundNat53 (n : ℕ) : ℕ :=
  if n ≤ 2 ^ 53 then n
  else
    let e := log2Fuel 64 n
    let u := 2 ^ (e - 52)
    let q := n / u
    let r := n % u
    if 2 * r < u then q * u
    else if u < 2 * r then (q + 1) * u
    else if q % 2 = 0 then q * u else (q + 1) * u

/-- Model of the Rust cast `i64 as f64`: round to the nearest representable
double, ties to even (exact for magnitudes up to `2^53`). -/
def i64ToF64 (v : ℤ) : ℚ :=
  if 0 ≤ v then (roundNat53 v.toNat : ℚ) else -(roundNat53 (-v).toNat : ℚ)

/-- The evaluator `eval` (src/ast.rs).  The Rust function returns
`Result<f64, Box<dyn Error>>`; the error payload is modelled as its message
string. -/
def eval : Node → Except String ℚ
  | .Number i => .ok i
  | .Add a b => do
      let x ← eval a
      let y ← eval b
      return x + y
  | .Subtract a b => do
      let x ← eval a
      let y ← eval b
      return x - y
  | .Multiply a b => do
      let x ← eval a
      let y ← eval b
      return x * y
  | .Divide a b => do
      let divisor ← eval b
      if divisor = 0 then
        throw "Division by zero"
      else
        let x ← eval a
        return x / divisor
  | .Caret a b => do
      let x ← eval a
      let y ← eval b
      return powQ x y
  | .Negative a => do
      let x ← eval a
      return -x
  | .And a b => do
      let x ← eval a
      let y ← eval b
      return i64ToF64 (i64Land (f64ToI64 x) (f64ToI64 y))
  | .Or a b => do
      let x ← eval a
      let y ← eval b
      return i64ToF64 (i64Lor (f64ToI64 x) (f64ToI64 y))

/-- `enum ParseError` (src/parser.rs). -/
inductive ParseError where
  | UnableToParse (msg : String)
  | InvalidOperator (msg : String)
deriving DecidableEq

/-- The parser state: the `current_token` field together with the tokenizer's
remaining input (src/parser.rs, `struct Parser`). -/
structure PState where
  currentToken : Token
  rest : List Char
deriving DecidableEq

/-- Rust `Debug` rendering of a token (derived `Debug` on `enum Token`); the
float payload of `Num` is rendered as a rational. -/
def tokenDebug : Token → String
  | .And => "And"
  | .Or => "Or"
  | .Add => "Add"
  | .Subtract => "Subtract"
  | .Multiply => "Multiply"
  | .Divide => "Divide"
  | .Caret => "Caret"
  | .LeftParen => "LeftParen"
  | .RightParen => "RightParen"
  | .Num v => "Num(" ++ toString v ++ ")"
  | .EOF => "EOF"

/-- `Parser::new` (src/parser.rs): pull the first token; fail with an
"Invalid character" error if the lexer yields nothing. -/
def mkParser (expr : List Char) : Except ParseError PState :=
  match tokenizerNext expr with
  | (some t, r) => .ok ⟨t, r⟩
  | (none, _) => .error (.InvalidOperator "Invalid character")

/-- `Parser::get_next_token` (src/parser.rs): pull the next token; fail with
an "Unexpected end of input" error if the lexer yields nothing. -/
def getNextToken (st : PState) : Except ParseError PState :=
  match tokenizerNext st.rest with
  | (some t, r) => .ok ⟨t, r⟩
  | (none, _) => .error (.InvalidOperator "Unexpected end of input")

/-- `Parser::check_paren` (src/parser.rs). -/
def checkParen (st : PState) (expected : Token) : Except ParseError PState :=
  if st.currentToken = expected then
    getNextToken st
  else
    .error (.InvalidOperator
      ("Expected " ++ tokenDebug expected ++ ", got " ++ tokenDebug st.currentToken))

/-- Requests of the fuel-indexed parser interpreter `run`: the mutually
recursive private methods of `Parser` (src/parser.rs). `gen` is
`generate_ast`, `prim` is `parse_number`, `conv` is `convert_token_to_node`,
and `loop` is the `while` loop inside `generate_ast`, carrying the
accumulated left operand. -/
inductive Call where
  | gen (prec : OperPrec)
  | prim
  | conv (left : Node)
  | loop (prec : OperPrec) (left : Node)

/-- Result type of a parser step: `none` is fuel exhaustion (never reached on
the fuel supplied by `evaluate`; see `pipeline_terminates_C9`). -/
abbrev PResult := Option (Except ParseError (Node × PState))

/-- Sequencing for `PResult`-style computations: errors and fuel exhaustion
propagate, as the `?` operator does in the Rust source. -/
def resBind {α β : Type} (x : Option (Except ParseError α))
    (g : α → Option (Except ParseError β)) : Option (Except ParseError β) :=
  match x with
  | none => none
  | some (.error e) => some (.error e)
  | some (.ok a) => g a

/-- Lift a fallible step into a `PResult`-style computation. -/
def liftE {α : Type} (x : Except ParseError α) : Option (Except ParseError α) :=
  some x

/-- The parser proper (src/parser.rs): a fuel-indexed interpreter for the
mutually recursive methods `generate_ast` (`Call.gen`), `parse_number`
(`Call.prim`), `convert_token_to_node` (`Call.conv`) and the `while` loop of
`generate_ast` (`Call.loop`).  Each branch is a direct transcription of the
corresponding Rust method. -/
def run : ℕ → Call → PState → PResult
  | 0, _, _ => none
  | fuel + 1, Call.gen prec, st =>
      resBind (run fuel Call.prim st) fun x =>
        run fuel (Call.loop prec x.1) x.2
  | fuel + 1, Call.prim, st =>
      match st.currentToken with
      | Token.Subtract =>
          resBind (liftE (getNextToken st)) fun st1 =>
          resBind (run fuel (Call.gen OperPrec.Negative) st1) fun x =>
          some (.ok (Node.Negative x.1, x.2))
      | Token.Num i =>
          resBind (liftE (getNextToken st)) fun st1 =>
          some (.ok (Node.Number i, st1))
      | Token.LeftParen =>
          resBind (liftE (getNextToken st)) fun st1 =>
          resBind (run fuel (Call.gen OperPrec.DefaultZero) st1) fun x =>
          resBind (liftE (checkParen x.2 Token.RightParen)) fun st3 =>
          some (.ok (x.1, st3))
      | _ => some (.error (.UnableToParse "Unexpected token"))
  | fuel + 1, Call.conv left, st =>
      match st.currentToken with
      | Token.Add =>
          resBind (liftE (getNextToken st)) fun st1 =>
          resBind (run fuel (Call.gen OperPrec.AddSub) st1) fun x =>
          some (.ok (Node.Add left x.1, x.2))
      | Token.Subtract =>
          resBind (liftE (getNextToken st)) fun st1 =>
          resBind (run fuel (Call.gen OperPrec.AddSub) st1) fun x =>
          some (.ok (Node.Subtract left x.1, x.2))
      | Token.Multiply =>
          resBind (liftE (getNextToken st)) fun st1 =>
          resBind (run fuel (Call.gen OperPrec.MulDiv) st1) fun x =>
          some (.ok (Node.Multiply left x.1, x.2))
      | Token.Divide =>
          resBind (liftE (getNextToken st)) fun st1 =>
          resBind (run fuel (Call.gen OperPrec.MulDiv) st1) fun x =>
          some (.ok (Node.Divide left x.1, x.2))
      | Token.Caret =>
          resBind (liftE (getNextToken st)) fun st1 =>
          resBind (run fuel (Call.gen OperPrec.Exponent) st1) fun x =>
          some (.ok (Node.Caret left x.1, x.2))
      | Token.And =>
          resBind (liftE (getNextToken st)) fun st1 =>
          resBind (run fuel (Call.gen OperPrec.Bitwise) st1) fun x =>
          some (.ok (Node.And left x.1, x.2))
      | Token.Or =>
          resBind (liftE (getNextToken st)) fun st1 =>
          resBind (run fuel (Call.gen OperPrec.Bitwise) st1) fun x =>
          some (.ok (Node.Or left x.1, x.2))
      | _ => some (.error (.InvalidOperator
          ("Unexpected operator " ++ tokenDebug st.currentToken)))
  | fuel + 1, Call.loop prec left, st =>
      if prec.rank < st.currentToken.getOperPrec.rank then
        if st.currentToken = Token.EOF then some (.ok (left, st))
        else
          resBind (run fuel (Call.conv left) st) fun x =>
          run fuel (Call.loop prec x.1) x.2
      else some (.ok (left, st))

/-- `Parser::parse` (src/parser.rs): run `generate_ast` at the lowest
precedence level and return the tree, discarding the final state (trailing
tokens are ignored, as in the source). -/
def parse (fuel : ℕ) (st : PState) : Option (Except ParseError Node) :=
  resBind (run fuel (Call.gen OperPrec.DefaultZero) st) fun x => some (.ok x.1)

/-- Fuel supplied for an input of the given length; shown sufficient in
`pipeline_terminates_C9`. -/
def parseFuel (expr : List Char) : ℕ := 6 * expr.length + 8

/-- Construct the parser and parse, on an explicit character list. -/
def parseChars (expr : List Char) : Option (Except ParseError Node) :=
  match mkParser expr with
  | .error e => some (.error e)
  | .ok st => parse (parseFuel expr) st

/-- `evaluate` (src/main.rs): strip whitespace, build the parser, parse, then
evaluate; an evaluation error is wrapped into
`ParseError::UnableToParse("Parsing error occurred")` by the `From` impl in
src/parser.rs. -/
def evaluate (s : String) : Option (Except ParseError ℚ) :=
  let expr := s.data.filter fun c => !c.isWhitespace
  match parseChars expr with
  | none => none
  | some (.error e) => some (.error e)
  | some (.ok ast) =>
    match eval ast with
    | .ok v => some (.ok v)
    | .error _ => some (.error (.UnableToParse "Parsing error occurred"))

/-- Iterated lexer: the cursor after `n` calls to `Tokenizer::next` starting
from input `s`. -/
def lexState (s : List Char) : ℕ → List Char
  | 0 => s
  | n + 1 => (tokenizerNext (lexState s n)).2

/-- The characters the lexer recognizes: digits, the nine operator and
punctuation characters, and the whitespace it skips (src/tokenizer.rs). -/
def recognizedChar (c : Char) : Bool :=
  isDigitChar c || c = '+' || c = '-' || c = '*' || c = '/' || c = '^' ||
    c = '&' || c = '|' || c = '(' || c = ')' || c = ' ' || c = '\t' || c = '\n'

/-- Measure of a parser state: the parser only ever shrinks it (each token
consumption strictly decreases it until the state reaches `EOF` with an empty
cursor). -/
def mu (st : PState) : ℕ :=
  2 * st.rest.length + (if st.currentToken = Token.EOF then 0 else 1)

/-- How much smaller than the input measure the output measure of each parser
routine is guaranteed to be. -/
def callOff : Call → ℕ
  | .gen _ => 1
  | .prim => 1
  | .conv _ => 1
  | .loop _ _ => 0

/-- Fuel sufficient for each parser routine, as a function of the state
measure. -/
def callNeed : Call → PState → ℕ
  | .gen _, st => 3 * mu st + 2
  | .prim, st => 3 * mu st + 1
  | .conv _, st => 3 * mu st + 1
  | .loop _ _, st => 3 * mu st + 2

/-- The seven binary-operator characters. -/
def isOpChar (c : Char) : Bool :=
  c = '+' || c = '-' || c = '*' || c = '/' || c = '^' || c = '&' || c = '|'

/-- The token produced by a binary-operator character. -/
def opTok : Char → Token
  | '+' => .Add
  | '-' => .Subtract
  | '*' => .Multiply
  | '/' => .Divide
  | '^' => .Caret
  | '&' => .And
  | '|' => .Or
  | _ => .EOF

/-- The AST constructor applied by `convert_token_to_node` for a
binary-operator character. -/
def opNode (c : Char) : Node → Node → Node :=
  match c with
  | '+' => .Add
  | '-' => .Subtract
  | '*' => .Multiply
  | '/' => .Divide
  | '^' => .Caret
  | '&' => .And
  | '|' => .Or
  | _ => fun a _ => a

/-- A numeric-literal character string as the tokenizer accepts it: a digit
followed by digits and dots, with at most one dot. -/
def isNumLitB (s : List Char) : Bool :=
  (match s with
    | [] => false
    | c :: _ => isDigitChar c) &&
    s.all isDigitDot && s.count '.' ≤ 1

/-- One link of an operator chain: an operator character followed by a
numeric literal with its value. -/
structure ChainItem where
  op : Char
  lit : List Char
  val : ℚ

/-- All operators of a chain are binary-operator characters of one common
precedence level `P`, and all literals are well formed. -/
def chainOk (P : OperPrec) (items : List ChainItem) : Prop :=
  ∀ it ∈ items, isOpChar it.op = true ∧ (opTok it.op).getOperPrec = P ∧
    isNumLitB it.lit = true ∧ ratOfNumStr it.lit = some it.val

/-- The character string of an operator chain (operator, literal, operator,
literal, ...). -/
def chainRest : List ChainItem → List Char
  | [] => []
  | it :: t => it.op :: (it.lit ++ chainRest t)

/-- The parser state at the head of an operator chain: the current token is
the next operator (or `EOF` at the end), the cursor holds the remainder. -/
def chainState : List ChainItem → PState
  | [] => ⟨Token.EOF, []⟩
  | it :: t => ⟨opTok it.op, it.lit ++ chainRest t⟩

/-- The left-nested tree built from a first operand and an operator chain. -/
def chainTree (first : Node) : List ChainItem → Node
  | [] => first
  | it :: t => chainTree (opNode it.op first (Node.Number it.val)) t

/-- Unfolding lemma: bind on a successful `Except` step. -/
theorem exceptBind_ok {ε α β : Type} (a : α) (f : α → Except ε β) :
    (Except.ok a >>= f) = f a := rfl

/-- Unfolding lemma: bind on a failed `Except` step. -/
theorem exceptBind_error {ε α β : Type} (e : ε) (f : α → Except ε β) :
    ((Except.error e : Except ε α) >>= f) = Except.error e := rfl

/-- The lexer on exhausted input: it yields `EOF` and stays exhausted. -/
theorem tokenizerNext_nil : tokenizerNext [] = (some Token.EOF, []) := rfl

/-- Unfolding equation for one lexer step on nonempty input. -/
theorem tokenizerNext_cons_eq (c : Char) (rest : List Char) :
    tokenizerNext (c :: rest) =
      if isDigitChar c then tokParseNumber c rest
      else if c = '+' then (some Token.Add, rest)
      else if c = '-' then (some Token.Subtract, rest)
      else if c = '*' then (some Token.Multiply, rest)
      else if c = '/' then (some Token.Divide, rest)
      else if c = '^' then (some Token.Caret, rest)
      else if c = '&' then (some Token.And, rest)
      else if c = '|' then (some Token.Or, rest)
      else if c = '(' then (some Token.LeftParen, rest)
      else if c = ')' then (some Token.RightParen, rest)
      else if c = ' ' || c = '\t' || c = '\n' then tokenizerNext rest
      else (none, rest) := rfl

/-- `dropWhile` never lengthens a list. -/
theorem dropWhile_length_le (p : Char → Bool) :
    ∀ l : List Char, (l.dropWhile p).length ≤ l.length := by
  intro l
  induction l with
  | nil => simp
  | cons c rest ih =>
      by_cases h : p c
      · simp only [List.dropWhile, h]
        exact Nat.le_succ_of_le ih
      · simp only [List.dropWhile, h]
        simp

/-- The number scanner leaves exactly the input minus the scanned literal. -/
theorem tokParseNumber_rest (c : Char) (rest : List Char) :
    (tokParseNumber c rest).2 = rest.dropWhile isDigitDot := by
  unfold tokParseNumber
  cases h : ratOfNumStr (c :: rest.takeWhile isDigitDot) <;> simp [h]

/-- Lexer progress: on nonempty input, each step strictly shrinks the
cursor. -/
theorem tokenizerNext_rest_lt : ∀ s : List Char, s ≠ [] → (tokenizerNext s).2.length < s.length := by
  intro s
  induction s with
  | nil => intro h; exact absurd rfl h
  | cons c rest ih =>
      intro _
      rw [tokenizerNext_cons_eq, List.length_cons]
      by_cases h1 : isDigitChar c
      · rw [if_pos h1, tokParseNumber_rest]
        exact Nat.lt_succ_of_le (dropWhile_length_le _ _)
      rw [if_neg h1]
      by_cases h2 : c = '+'
      · rw [if_pos h2]
        exact Nat.lt_succ_self _
      rw [if_neg h2]
      by_cases h3 : c = '-'
      · rw [if_pos h3]
        exact Nat.lt_succ_self _
      rw [if_neg h3]
      by_cases h4 : c = '*'
      · rw [if_pos h4]
        exact Nat.lt_succ_self _
      rw [if_neg h4]
      by_cases h5 : c = '/'
      · rw [if_pos h5]
        exact Nat.lt_succ_self _
      rw [if_neg h5]
      by_cases h6 : c = '^'
      · rw [if_pos h6]
        exact Nat.lt_succ_self _
      rw [if_neg h6]
      by_cases h7 : c = '&'
      · rw [if_pos h7]
        exact Nat.lt_succ_self _
      rw [if_neg h7]
      by_cases h8 : c = '|'
      · rw [if_pos h8]
        exact Nat.lt_succ_self _
      rw [if_neg h8]
      by_cases h9 : c = '('
      · rw [if_pos h9]
        exact Nat.lt_succ_self _
      rw [if_neg h9]
      by_cases h10 : c = ')'
      · rw [if_pos h10]
        exact Nat.lt_succ_self _
      rw [if_neg h10]
      by_cases h11 : c = ' ' || c = '\t' || c = '\n'
      · rw [if_pos h11]
        cases rest with
        | nil =>
            rw [tokenizerNext_nil]
            simp
        | cons c2 rest2 =>
            exact Nat.lt_succ_of_lt (ih (List.cons_ne_nil c2 rest2))
      rw [if_neg h11]
      exact Nat.lt_succ_self _

/-- Lexer progress, weak form: the cursor never grows. -/
theorem tokenizerNext_rest_le (s : List Char) : (tokenizerNext s).2.length ≤ s.length := by
  cases s with
  | nil => rw [tokenizerNext_nil]
  | cons c rest => exact le_of_lt (tokenizerNext_rest_lt _ (List.cons_ne_nil c rest))

/-- Sequencing on an exhausted computation. -/
theorem resBind_none {α β : Type} (g : α → Option (Except ParseError β)) :
    resBind none g = none := rfl

/-- Sequencing on a failed step. -/
theorem resBind_error {α β : Type} (e : ParseError) (g : α → Option (Except ParseError β)) :
    resBind (some (.error e)) g = some (.error e) := rfl

/-- Sequencing on a successful step. -/
theorem resBind_ok {α β : Type} (a : α) (g : α → Option (Except ParseError β)) :
    resBind (some (.ok a)) g = g a := rfl

/-- Inversion: a successful sequenced result comes from a successful first
step. -/
theorem resBind_ok_inv {α β : Type} {x : Option (Except ParseError α)}
    {g : α → Option (Except ParseError β)} {b : β}
    (h : resBind x g = some (.ok b)) : ∃ a, x = some (.ok a) ∧ g a = some (.ok b) := by
  cases x with
  | none => exact absurd h (by simp [resBind])
  | some v =>
      cases v with
      | error e => exact absurd h (by simp [resBind])
      | ok a => exact ⟨a, rfl, h⟩

/-- A successful token pull from a state whose token is not `EOF` strictly
decreases the measure. -/
theorem getNextToken_mu {st st' : PState} (hne : st.currentToken ≠ Token.EOF)
    (h : getNextToken st = .ok st') : mu st' < mu st := by
  unfold getNextToken at h
  rcases hk : tokenizerNext st.rest with ⟨t, r⟩
  rw [hk] at h
  cases t with
  | none => simp at h
  | some tok =>
      simp at h
      subst h
      cases hr : st.rest with
      | nil =>
          rw [hr, tokenizerNext_nil] at hk
          obtain ⟨hk1, hk2⟩ := Prod.mk.injEq .. ▸ hk
          simp at hk1 hk2
          subst hk1
          subst hk2
          simp [mu, hr, if_neg hne]
      | cons c2 r2 =>
          have hlt : r.length < st.rest.length := by
            have := tokenizerNext_rest_lt st.rest (by rw [hr]; exact List.cons_ne_nil _ _)
            rw [hk] at this
            exact this
          by_cases he : tok = Token.EOF <;>
            simp [mu, he, if_neg hne] <;> omega



theorem checkParen_mu {st st' : PState}
    (h : checkParen st Token.RightParen = .ok st') : mu st' < mu st := by
  unfold checkParen at h
  by_cases hc : st.currentToken = Token.RightParen
  · rw [if_pos hc] at h
    exact getNextToken_mu (by rw [hc]; simp) h
  · rw [if_neg hc] at h
    exact absurd h (by simp)

theorem run_mu : ∀ (fuel : ℕ) (c : Call) (st : PState) (pn : Node) (pst : PState),
    run fuel c st = some (.ok (pn, pst)) → mu pst + callOff c ≤ mu st := by
  intro fuel
  induction fuel with
  | zero => intro c st pn pst h; simp [run] at h
  | succ fuel ih =>
      intro c st pn pst h
      cases c with
      | gen prec =>
          simp only [run] at h
          obtain ⟨a, h1, h2⟩ := resBind_ok_inv h
          have m1 := ih Call.prim st a.1 a.2 h1
          have m2 := ih (Call.loop prec a.1) a.2 pn pst h2
          simp only [callOff] at m1 m2 ⊢
          omega
      | prim =>
          cases hcur : st.currentToken
          case And => simp [run, hcur] at h
          case Or => simp [run, hcur] at h
          case Add => simp [run, hcur] at h
          case Multiply => simp [run, hcur] at h
          case Divide => simp [run, hcur] at h
          case Caret => simp [run, hcur] at h
          case RightParen => simp [run, hcur] at h
          case EOF => simp [run, hcur] at h
          case Num v =>
            cases hgn : getNextToken st with
            | error e => simp [run, hcur, hgn, liftE, resBind] at h
            | ok st1 =>
                simp only [run, hcur, hgn, liftE, resBind_ok] at h
                simp at h
                obtain ⟨h2a, h2b⟩ := h
                subst h2b
                have hmu := getNextToken_mu (by rw [hcur]; simp) hgn
                simp only [callOff]
                omega
          case Subtract =>
            cases hgn : getNextToken st with
            | error e => simp [run, hcur, hgn, liftE, resBind] at h
            | ok st1 =>
                simp only [run, hcur, hgn, liftE, resBind_ok] at h
                obtain ⟨a, h1, h2⟩ := resBind_ok_inv h
                simp at h2
                obtain ⟨h2a, h2b⟩ := h2
                subst h2b
                have m1 := ih (Call.gen OperPrec.Negative) st1 a.1 a.2 h1
                have hmu := getNextToken_mu (by rw [hcur]; simp) hgn
                simp only [callOff] at m1 ⊢
                omega
          case LeftParen =>
            cases hgn : getNextToken st with
            | error e => simp [run, hcur, hgn, liftE, resBind] at h
            | ok st1 =>
                simp only [run, hcur, hgn, liftE, resBind_ok] at h
                obtain ⟨a, h1, h2⟩ := resBind_ok_inv h
                cases hcp : checkParen a.2 Token.RightParen with
                | error e =>
                    rw [hcp] at h2
                    simp [liftE, resBind] at h2
                | ok st3 =>
                    rw [hcp] at h2
                    simp [liftE, resBind_ok] at h2
                    obtain ⟨h2a, h2b⟩ := h2
                    subst h2b
                    have m1 := ih (Call.gen OperPrec.DefaultZero) st1 a.1 a.2 h1
                    have hmu := getNextToken_mu (by rw [hcur]; simp) hgn
                    have hcpmu := checkParen_mu hcp
                    simp only [callOff] at m1 ⊢
                    omega
      | conv left =>
          cases hcur : st.currentToken
          case LeftParen => simp [run, hcur] at h
          case RightParen => simp [run, hcur] at h
          case Num v => simp [run, hcur] at h
          case EOF => simp [run, hcur] at h
          all_goals
            cases hgn : getNextToken st with
            | error e => simp [run, hcur, hgn, liftE, resBind] at h
            | ok st1 =>
                simp only [run, hcur, hgn, liftE, resBind_ok] at h
                obtain ⟨a, h1, h2⟩ := resBind_ok_inv h
                simp at h2
                obtain ⟨h2a, h2b⟩ := h2
                subst h2b
                have m1 := ih _ st1 a.1 a.2 h1
                have hmu := getNextToken_mu (by rw [hcur]; simp) hgn
                simp only [callOff] at m1 ⊢
                omega
      | loop prec left =>
          simp only [run] at h
          by_cases hc : prec.rank < st.currentToken.getOperPrec.rank
          · rw [if_pos hc] at h
            by_cases he : st.currentToken = Token.EOF
            · rw [if_pos he] at h
              simp at h
              obtain ⟨h1, h2⟩ := h
              subst h2
              simp [callOff]
            · rw [if_neg he] at h
              obtain ⟨a, h1, h2⟩ := resBind_ok_inv h
              have m1 := ih (Call.conv left) st a.1 a.2 h1
              have m2 := ih (Call.loop prec a.1) a.2 pn pst h2
              simp only [callOff] at m1 m2 ⊢
              omega
          · rw [if_neg hc] at h
            simp at h
            obtain ⟨h1, h2⟩ := h
            subst h2
            simp [callOff]



theorem run_suffic : ∀ (fuel : ℕ) (c : Call) (st : PState),
    callNeed c st ≤ fuel → run fuel c st ≠ none := by
  intro fuel
  induction fuel with
  | zero =>
      intro c st hn
      exfalso
      cases c <;> simp [callNeed] at hn
  | succ fuel ih =>
      intro c st hn
      cases c with
      | gen prec =>
          simp only [run]
          cases hp : run fuel Call.prim st with
          | none =>
              exact absurd hp (ih Call.prim st (by simp only [callNeed] at hn ⊢; omega))
          | some v =>
              cases v with
              | error e => simp [resBind]
              | ok a =>
                  obtain ⟨an, ast⟩ := a
                  rw [resBind_ok]
                  have hm := run_mu fuel Call.prim st an ast hp
                  simp only [callOff] at hm
                  exact ih (Call.loop prec an) ast
                    (by simp only [callNeed] at hn ⊢; omega)
      | prim =>
          cases hcur : st.currentToken
          case And => simp [run, hcur]
          case Or => simp [run, hcur]
          case Add => simp [run, hcur]
          case Multiply => simp [run, hcur]
          case Divide => simp [run, hcur]
          case Caret => simp [run, hcur]
          case RightParen => simp [run, hcur]
          case EOF => simp [run, hcur]
          case Num v =>
            cases hgn : getNextToken st with
            | error e => simp [run, hcur, hgn, liftE, resBind]
            | ok st1 => simp [run, hcur, hgn, liftE, resBind_ok]
          case Subtract =>
            cases hgn : getNextToken st with
            | error e => simp [run, hcur, hgn, liftE, resBind]
            | ok st1 =>
                simp only [run, hcur, hgn, liftE, resBind_ok]
                have hmu := getNextToken_mu (by rw [hcur]; simp) hgn
                cases hg : run fuel (Call.gen OperPrec.Negative) st1 with
                | none =>
                    exact absurd hg (ih (Call.gen OperPrec.Negative) st1
                      (by simp only [callNeed] at hn ⊢; omega))
                | some v2 =>
                    cases v2 with
                    | error e => simp [resBind]
                    | ok a => simp [resBind_ok]
          case LeftParen =>
            cases hgn : getNextToken st with
            | error e => simp [run, hcur, hgn, liftE, resBind]
            | ok st1 =>
                simp only [run, hcur, hgn, liftE, resBind_ok]
                have hmu := getNextToken_mu (by rw [hcur]; simp) hgn
                cases hg : run fuel (Call.gen OperPrec.DefaultZero) st1 with
                | none =>
                    exact absurd hg (ih (Call.gen OperPrec.DefaultZero) st1
                      (by simp only [callNeed] at hn ⊢; omega))
                | some v2 =>
                    cases v2 with
                    | error e => simp [resBind]
                    | ok a =>
                        rw [resBind_ok]
                        cases hcp : checkParen a.2 Token.RightParen with
                        | error e => simp [liftE, resBind, hcp]
                        | ok st3 => simp [liftE, resBind_ok, hcp]
      | conv left =>
          cases hcur : st.currentToken
          case LeftParen => simp [run, hcur]
          case RightParen => simp [run, hcur]
          case Num v => simp [run, hcur]
          case EOF => simp [run, hcur]
          all_goals
            cases hgn : getNextToken st with
            | error e => simp [run, hcur, hgn, liftE, resBind]
            | ok st1 =>
                simp only [run, hcur, hgn, liftE, resBind_ok]
                have hmu := getNextToken_mu (by rw [hcur]; simp) hgn
                cases hg : run fuel _ st1 with
                | none =>
                    exact absurd hg (ih _ st1
                      (by simp only [callNeed] at hn ⊢; omega))
                | some v2 =>
                    cases v2 with
                    | error e => simp [resBind]
                    | ok a => simp [resBind_ok]
      | loop prec left =>
          simp only [run]
          by_cases hc : prec.rank < st.currentToken.getOperPrec.rank
          · rw [if_pos hc]
            by_cases he : st.currentToken = Token.EOF
            · rw [if_pos he]
              simp
            · rw [if_neg he]
              cases hcv : run fuel (Call.conv left) st with
              | none =>
                  exact absurd hcv (ih (Call.conv left) st
                    (by simp only [callNeed] at hn ⊢; omega))
              | some v =>
                  cases v with
                  | error e => simp [resBind]
                  | ok a =>
                      obtain ⟨an, ast⟩ := a
                      rw [resBind_ok]
                      have hm := run_mu fuel (Call.conv left) st an ast hcv
                      simp only [callOff] at hm
                      exact ih (Call.loop prec an) ast
                        (by simp only [callNeed] at hn ⊢; omega)
          · rw [if_neg hc]
            simp



theorem parseChars_ne_none (expr : List Char) : parseChars expr ≠ none := by
  unfold parseChars
  cases hmk : mkParser expr with
  | error e => simp
  | ok st =>
      have hrest : st.rest.length ≤ expr.length := by
        unfold mkParser at hmk
        rcases hk : tokenizerNext expr with ⟨t, r⟩
        rw [hk] at hmk
        cases t with
        | none => simp at hmk
        | some tok =>
            simp at hmk
            have hle := tokenizerNext_rest_le expr
            rw [hk] at hle
            rw [← hmk]
            exact hle
      have hmu : mu st ≤ 2 * expr.length + 1 := by
        unfold mu
        by_cases he : st.currentToken = Token.EOF <;> simp [he] <;> omega
      have hne := run_suffic (parseFuel expr) (Call.gen OperPrec.DefaultZero) st
        (by simp only [callNeed, parseFuel]; omega)
      show parse (parseFuel expr) st ≠ none
      unfold parse
      cases hr : run (parseFuel expr) (Call.gen OperPrec.DefaultZero) st with
      | none => exact absurd hr hne
      | some v =>
          cases v with
          | error e => simp [resBind]
          | ok a => simp [resBind_ok]



theorem takeWhile_append_all (p : Char → Bool) :
    ∀ (l r : List Char), (∀ a ∈ l, p a = true) → (∀ c t, r = c :: t → p c = false) →
      (l ++ r).takeWhile p = l ∧ (l ++ r).dropWhile p = r := by
  intro l
  induction l with
  | nil =>
      intro r _ hr
      cases r with
      | nil => simp
      | cons c t =>
          have hc := hr c t rfl
          simp [List.takeWhile, List.dropWhile, hc]
  | cons a l ih =>
      intro r hl hr
      have ha := hl a (List.mem_cons_self a l)
      obtain ⟨ht, hd⟩ := ih r (fun x hx => hl x (List.mem_cons_of_mem a hx)) hr
      simp [List.takeWhile, List.dropWhile, ha, ht, hd]

theorem lexNumLit {s : List Char} {v : ℚ} (r : List Char)
    (hs : isNumLitB s = true) (hv : ratOfNumStr s = some v)
    (hr : ∀ c t, r = c :: t → isDigitDot c = false) :
    tokenizerNext (s ++ r) = (some (Token.Num v), r) := by
  cases s with
  | nil => simp [isNumLitB] at hs
  | cons c tail =>
      simp only [isNumLitB, Bool.and_eq_true] at hs
      obtain ⟨⟨hc, hall⟩, _⟩ := hs
      have htail : ∀ a ∈ tail, isDigitDot a = true := by
        rw [List.all_eq_true] at hall
        exact fun a ha => hall a (List.mem_cons_of_mem c ha)
      obtain ⟨ht, hd⟩ := takeWhile_append_all isDigitDot tail r htail hr
      rw [List.cons_append, tokenizerNext_cons_eq, if_pos hc]
      simp [tokParseNumber, ht, hd, hv]

theorem opLex {c : Char} (hop : isOpChar c = true) (r : List Char) :
    tokenizerNext (c :: r) = (some (opTok c), r) := by
  simp only [isOpChar, Bool.or_eq_true, decide_eq_true_eq] at hop
  rcases hop with ((((((h|h)|h)|h)|h)|h)|h) <;> subst h <;> rfl

theorem opChar_not_digitdot {c : Char} (hop : isOpChar c = true) : isDigitDot c = false := by
  simp only [isOpChar, Bool.or_eq_true, decide_eq_true_eq] at hop
  rcases hop with ((((((h|h)|h)|h)|h)|h)|h) <;> subst h <;> decide

theorem opTok_ne_eof {c : Char} (hop : isOpChar c = true) : opTok c ≠ Token.EOF := by
  simp only [isOpChar, Bool.or_eq_true, decide_eq_true_eq] at hop
  rcases hop with ((((((h|h)|h)|h)|h)|h)|h) <;> subst h <;> decide

theorem opTok_rank_pos {c : Char} (hop : isOpChar c = true) :
    1 ≤ ((opTok c).getOperPrec).rank := by
  simp only [isOpChar, Bool.or_eq_true, decide_eq_true_eq] at hop
  rcases hop with ((((((h|h)|h)|h)|h)|h)|h) <;> subst h <;> decide

theorem chainRest_headNot {P : OperPrec} {t : List ChainItem} (h : chainOk P t) :
    ∀ c tl, chainRest t = c :: tl → isDigitDot c = false := by
  intro c tl he
  cases t with
  | nil => simp [chainRest] at he
  | cons it t' =>
      simp only [chainRest] at he
      obtain ⟨hop, _, _, _⟩ := h it (List.mem_cons_self it t')
      obtain ⟨h1, _⟩ := List.cons.injEq .. ▸ he
      rw [← h1]
      exact opChar_not_digitdot hop

theorem chainRest_lex {P : OperPrec} {t : List ChainItem} (h : chainOk P t) :
    tokenizerNext (chainRest t) = (some (chainState t).currentToken, (chainState t).rest) := by
  cases t with
  | nil => rfl
  | cons it t' =>
      obtain ⟨hop, _, _, _⟩ := h it (List.mem_cons_self it t')
      simp only [chainRest, chainState]
      exact opLex hop _

theorem chainState_no_continue {P : OperPrec} {t : List ChainItem} (h : chainOk P t) :
    ¬ P.rank < (((chainState t).currentToken).getOperPrec).rank := by
  cases t with
  | nil => simp [chainState, Token.getOperPrec, OperPrec.rank]
  | cons it t' =>
      obtain ⟨_, hprec, _, _⟩ := h it (List.mem_cons_self it t')
      simp only [chainState, hprec]
      exact lt_irrefl _

theorem chainRest_length_ge : ∀ items : List ChainItem, items.length ≤ (chainRest items).length := by
  intro items
  induction items with
  | nil => simp [chainRest]
  | cons it t ih =>
      simp only [chainRest, List.length_cons, List.length_append]
      omega



theorem run_prim_num {f : ℕ} {st st2 : PState} {i : ℚ}
    (hcur : st.currentToken = Token.Num i) (hgn : getNextToken st = .ok st2) :
    run (f + 1) Call.prim st = some (.ok (Node.Number i, st2)) := by
  simp [run, hcur, hgn, liftE, resBind_ok]

theorem run_gen_num {f : ℕ} {st st2 : PState} {i : ℚ} (P : OperPrec)
    (hcur : st.currentToken = Token.Num i) (hgn : getNextToken st = .ok st2)
    (hstop : ¬ P.rank < ((st2.currentToken).getOperPrec).rank) :
    run (f + 2) (Call.gen P) st = some (.ok (Node.Number i, st2)) := by
  have hp := run_prim_num (f := f) hcur hgn
  have hunfold : run (f + 1 + 1) (Call.gen P) st =
      resBind (run (f + 1) Call.prim st) fun x => run (f + 1) (Call.loop P x.1) x.2 := rfl
  rw [show f + 2 = f + 1 + 1 from rfl, hunfold, hp, resBind_ok]
  have hunfold2 : run (f + 1) (Call.loop P (Node.Number i)) st2 =
      if P.rank < ((st2.currentToken).getOperPrec).rank then
        (if st2.currentToken = Token.EOF then some (.ok (Node.Number i, st2))
         else resBind (run f (Call.conv (Node.Number i)) st2) fun x =>
           run f (Call.loop P x.1) x.2)
      else some (.ok (Node.Number i, st2)) := rfl
  rw [hunfold2, if_neg hstop]

theorem run_conv_op {f : ℕ} {st st1 rst : PState} {rn : Node} {c : Char} (left : Node)
    (hop : isOpChar c = true) (hcur : st.currentToken = opTok c)
    (hgn : getNextToken st = .ok st1)
    (hgen : run f (Call.gen ((opTok c).getOperPrec)) st1 = some (.ok (rn, rst))) :
    run (f + 1) (Call.conv left) st = some (.ok (opNode c left rn, rst)) := by
  simp only [isOpChar, Bool.or_eq_true, decide_eq_true_eq] at hop
  rcases hop with ((((((h|h)|h)|h)|h)|h)|h) <;> subst h
  · rw [show opTok '+' = Token.Add from rfl] at hcur hgen
    rw [show opNode '+' = Node.Add from rfl]
    rw [show (Token.Add).getOperPrec = OperPrec.AddSub from rfl] at hgen
    simp [run, hcur, hgn, liftE, resBind_ok, hgen]
  · rw [show opTok '-' = Token.Subtract from rfl] at hcur hgen
    rw [show opNode '-' = Node.Subtract from rfl]
    rw [show (Token.Subtract).getOperPrec = OperPrec.AddSub from rfl] at hgen
    simp [run, hcur, hgn, liftE, resBind_ok, hgen]
  · rw [show opTok '*' = Token.Multiply from rfl] at hcur hgen
    rw [show opNode '*' = Node.Multiply from rfl]
    rw [show (Token.Multiply).getOperPrec = OperPrec.MulDiv from rfl] at hgen
    simp [run, hcur, hgn, liftE, resBind_ok, hgen]
  · rw [show opTok '/' = Token.Divide from rfl] at hcur hgen
    rw [show opNode '/' = Node.Divide from rfl]
    rw [show (Token.Divide).getOperPrec = OperPrec.MulDiv from rfl] at hgen
    simp [run, hcur, hgn, liftE, resBind_ok, hgen]
  · rw [show opTok '^' = Token.Caret from rfl] at hcur hgen
    rw [show opNode '^' = Node.Caret from rfl]
    rw [show (Token.Caret).getOperPrec = OperPrec.Exponent from rfl] at hgen
    simp [run, hcur, hgn, liftE, resBind_ok, hgen]
  · rw [show opTok '&' = Token.And from rfl] at hcur hgen
    rw [show opNode '&' = Node.And from rfl]
    rw [show (Token.And).getOperPrec = OperPrec.Bitwise from rfl] at hgen
    simp [run, hcur, hgn, liftE, resBind_ok, hgen]
  · rw [show opTok '|' = Token.Or from rfl] at hcur hgen
    rw [show opNode '|' = Node.Or from rfl]
    rw [show (Token.Or).getOperPrec = OperPrec.Bitwise from rfl] at hgen
    simp [run, hcur, hgn, liftE, resBind_ok, hgen]

theorem chain_loop (P prec : OperPrec) (hP : prec.rank < P.rank) :
    ∀ (items : List ChainItem) (fuel : ℕ) (left : Node), chainOk P items →
      items.length + 4 ≤ fuel →
      run fuel (Call.loop prec left) (chainState items) =
        some (.ok (chainTree left items, ⟨Token.EOF, []⟩)) := by
  intro items
  induction items with
  | nil =>
      intro fuel left _ hf
      obtain ⟨f, rfl⟩ : ∃ f, fuel = f + 1 := ⟨fuel - 1, by omega⟩
      simp [run, chainState, chainTree, Token.getOperPrec, OperPrec.rank]
  | cons it t ih =>
      intro fuel left hok hf
      obtain ⟨hop, hprec, hlit, hval⟩ := hok it (List.mem_cons_self it t)
      have hokt : chainOk P t := fun x hx => hok x (List.mem_cons_of_mem it hx)
      obtain ⟨g, rfl⟩ : ∃ g, fuel = g + 4 := ⟨fuel - 4, by omega⟩
      have hcur : (chainState (it :: t)).currentToken = opTok it.op := rfl
      have hcond : prec.rank < (((chainState (it :: t)).currentToken).getOperPrec).rank := by
        rw [hcur, hprec]
        exact hP
      have hne : (chainState (it :: t)).currentToken ≠ Token.EOF := by
        rw [hcur]
        exact opTok_ne_eof hop
      have hgn1 : getNextToken (chainState (it :: t)) = .ok ⟨Token.Num it.val, chainRest t⟩ := by
        unfold getNextToken
        rw [show (chainState (it :: t)).rest = it.lit ++ chainRest t from rfl]
        rw [lexNumLit (chainRest t) hlit hval (chainRest_headNot hokt)]
      have hgn2 : getNextToken ⟨Token.Num it.val, chainRest t⟩ = .ok (chainState t) := by
        unfold getNextToken
        rw [show (PState.mk (Token.Num it.val) (chainRest t)).rest = chainRest t from rfl]
        rw [chainRest_lex hokt]
      have hgen : run (g + 2) (Call.gen ((opTok it.op).getOperPrec))
          ⟨Token.Num it.val, chainRest t⟩ = some (.ok (Node.Number it.val, chainState t)) := by
        rw [hprec]
        exact run_gen_num P rfl hgn2 (chainState_no_continue hokt)
      have hconv : run (g + 3) (Call.conv left) (chainState (it :: t)) =
          some (.ok (opNode it.op left (Node.Number it.val), chainState t)) :=
        run_conv_op (f := g + 2) left hop hcur hgn1 hgen
      have hunfold : run ((g + 3) + 1) (Call.loop prec left) (chainState (it :: t)) =
          (if prec.rank < (((chainState (it :: t)).currentToken).getOperPrec).rank then
            (if (chainState (it :: t)).currentToken = Token.EOF then
              some (.ok (left, chainState (it :: t)))
             else resBind (run (g + 3) (Call.conv left) (chainState (it :: t))) fun x =>
               run (g + 3) (Call.loop prec x.1) x.2)
           else some (.ok (left, chainState (it :: t)))) := rfl
      show run ((g + 3) + 1) (Call.loop prec left) (chainState (it :: t)) = _
      rw [hunfold, if_pos hcond, if_neg hne, hconv, resBind_ok]
      rw [show chainTree left (it :: t) = chainTree (opNode it.op left (Node.Number it.val)) t from rfl]
      exact ih (g + 3) (opNode it.op left (Node.Number it.val)) hokt (by
        simp only [List.length_cons] at hf
        omega)

/-- C1.  The end-to-end entry point `evaluate` computes standard infix
arithmetic on the specification's worked examples. -/
theorem evaluate_examples_C1 :
    evaluate "2*3+(4-5)+2^3/4" = some (.ok 7) ∧
    evaluate "10-4" = some (.ok 6) ∧
    evaluate "3*7" = some (.ok 21) ∧
    evaluate "-5" = some (.ok (-5)) ∧
    evaluate "(8+2)-3" = some (.ok 7) ∧
    evaluate "2^10" = some (.ok 1024) := by
  refine ⟨by decide, by decide, by decide, by decide, by decide, by decide⟩

/-- C2.  A `Divide` node evaluates its divisor first; a divisor of exactly
zero fails with the division-by-zero error regardless of the dividend (the
dividend is not evaluated); a divisor error propagates as is; otherwise the
result is dividend over divisor.  Concretely `evaluate "5/0"` fails (the
evaluation error is wrapped by `evaluate` into the generic
`UnableToParse "Parsing error occurred"`) while `evaluate "5*0"` returns 0. -/
theorem divide_by_zero_C2 :
    (∀ a b : Node, eval b = .ok 0 → eval (Node.Divide a b) = .error "Division by zero") ∧
    (∀ (a b : Node) (e : String), eval b = .error e → eval (Node.Divide a b) = .error e) ∧
    (∀ (a b : Node) (d x : ℚ), eval b = .ok d → d ≠ 0 → eval a = .ok x →
      eval (Node.Divide a b) = .ok (x / d)) ∧
    evaluate "5/0" = some (.error (.UnableToParse "Parsing error occurred")) ∧
    evaluate "5*0" = some (.ok 0) := by
  refine ⟨?_, ?_, ?_, by decide, by decide⟩
  · intro a b h
    simp [eval, h, Bind.bind, Except.bind, throw, throwThe, MonadExceptOf.throw]
  · intro a b e h
    simp [eval, h, Bind.bind, Except.bind]
  · intro a b d x hb hd ha
    simp [eval, hb, hd, ha, Bind.bind, Except.bind, pure, Except.pure]

/-- Witness for C2: the division-by-zero error fires even when the dividend
itself would fail to evaluate (the dividend is not evaluated), and a nonzero
divisor divides normally. -/
theorem divide_by_zero_C2_witness :
    eval (Node.Divide (Node.Divide (Node.Number 1) (Node.Number 0)) (Node.Number 0)) =
      .error "Division by zero" ∧
    eval (Node.Divide (Node.Number 9) (Node.Number 4)) = .ok (9 / 4) ∧
    evaluate "5/0" = some (.error (.UnableToParse "Parsing error occurred")) := by
  refine ⟨?_, ?_, divide_by_zero_C2.2.2.2.1⟩
  · exact divide_by_zero_C2.1 _ (Node.Number 0) (by decide)
  · exact divide_by_zero_C2.2.2.1 (Node.Number 9) (Node.Number 4) 4 9 (by decide)
      (by decide) (by decide)

/-- C3.  Exponentiation parses left-associatively: `"2^3^2"` produces
`Caret(Caret(Number 2, Number 3), Number 2)`, which evaluates to 64, because
the right operand of `^` is parsed at `Exponent` precedence itself. -/
theorem caret_left_assoc_C3 :
    parseChars "2^3^2".data =
      some (.ok (Node.Caret (Node.Caret (Node.Number 2) (Node.Number 3)) (Node.Number 2))) ∧
    evaluate "2^3^2" = some (.ok 64) := by
  refine ⟨by decide, by decide⟩

/-- C5.  `And`/`Or` nodes evaluate both operands, truncate each toward zero
into the `i64` range (the Rust `as i64` cast: truncation with saturation at
the range bounds), apply the bitwise operation on the 64-bit two's-complement
patterns, and convert the result back to a 64-bit float (the Rust `as f64`
cast: round to nearest, ties to even, so results above `2^53` lose
precision).  Concretely `evaluate "6|2"` is 6 and `evaluate "5&3"` is 1. -/
theorem bitwise_semantics_C5 :
    (∀ (a b : Node) (x y : ℚ), eval a = .ok x → eval b = .ok y →
      eval (Node.And a b) = .ok (i64ToF64 (i64Land (f64ToI64 x) (f64ToI64 y))) ∧
      eval (Node.Or a b) = .ok (i64ToF64 (i64Lor (f64ToI64 x) (f64ToI64 y)))) ∧
    evaluate "6|2" = some (.ok 6) ∧
    evaluate "5&3" = some (.ok 1) := by
  refine ⟨?_, by decide, by decide⟩
  intro a b x y ha hb
  constructor
  · simp [eval, ha, hb, Bind.bind, Except.bind, pure, Except.pure]
  · simp [eval, ha, hb, Bind.bind, Except.bind, pure, Except.pure]

/-- Witness for C5: fractional operands are truncated toward zero
(5.5 & 3.5 = 5 & 3 = 1), and an operand beyond the `i64` range is forced into
it: 2^64 saturates to `i64::MAX`, `i64::MAX | 2 = i64::MAX`, and the final
cast back to `f64` rounds `i64::MAX` to `2^63` (2^63 - 1 is not
f64-representable). -/
theorem bitwise_semantics_C5_witness :
    eval (Node.And (Node.Number (11 / 2)) (Node.Number (7 / 2))) = .ok 1 ∧
    eval (Node.Or (Node.Number (2 ^ 64)) (Node.Number 2)) = .ok (2 ^ 63) ∧
    evaluate "6|2" = some (.ok 6) := by
  refine ⟨?_, ?_, bitwise_semantics_C5.2.1⟩
  · have h := (bitwise_semantics_C5.1 (Node.Number (11 / 2)) (Node.Number (7 / 2))
      (11 / 2) (7 / 2) (by decide) (by decide)).1
    rw [h]; decide
  · have h := (bitwise_semantics_C5.1 (Node.Number (2 ^ 64)) (Node.Number 2)
      (2 ^ 64) 2 (by decide) (by decide)).2
    rw [h]; decide

/-- C6.  On a character that is neither whitespace, nor a digit, nor a
recognized operator or punctuation character, the lexer consumes the
character and yields nothing (`none`, not an error token); the parser
surfaces this as an "Unexpected end of input" failure, so
`evaluate "2+3$4"` fails with that error and returns no number. -/
theorem unrecognized_char_C6 :
    (∀ (c : Char) (r : List Char), recognizedChar c = false →
      tokenizerNext (c :: r) = (none, r)) ∧
    (∀ st : PState, (tokenizerNext st.rest).1 = none →
      getNextToken st = .error (.InvalidOperator "Unexpected end of input")) ∧
    evaluate "2+3$4" = some (.error (.InvalidOperator "Unexpected end of input")) := by
  refine ⟨?_, ?_, by decide⟩
  · intro c r h
    simp only [recognizedChar, Bool.or_eq_false_iff, decide_eq_false_iff_not] at h
    obtain ⟨⟨⟨⟨⟨⟨⟨⟨⟨⟨⟨⟨h0, h1⟩, h2⟩, h3⟩, h4⟩, h5⟩, h6⟩, h7⟩, h8⟩, h9⟩, h10⟩, h11⟩, h12⟩ := h
    simp [tokenizerNext, h0, h1, h2, h3, h4, h5, h6, h7, h8, h9, h10, h11, h12]
  · intro st h
    unfold getNextToken
    rcases hk : tokenizerNext st.rest with ⟨t, r⟩
    rw [hk] at h
    simp at h
    rw [h]

/-- Witness for C6: the lexer consumes `'$'` and yields nothing, and the
pipeline rejects `"2+3$4"` with the end-of-input style error. -/
theorem unrecognized_char_C6_witness :
    tokenizerNext ('$' :: "4".data) = (none, "4".data) ∧
    evaluate "2+3$4" = some (.error (.InvalidOperator "Unexpected end of input")) :=
  ⟨unrecognized_char_C6.1 '$' "4".data (by decide), unrecognized_char_C6.2.2⟩

/-- C7.  After consuming `(`, `parse_number` parses a full expression at the
lowest precedence and then requires a matching `)`: any other current token
produces the mismatched-parenthesis error, while `)` is consumed and the
inner expression returned.  Concretely `evaluate "(2+3"` fails with the
mismatched-parenthesis syntax error. -/
theorem paren_check_C7 :
    (∀ (fuel : ℕ) (st st1 st2 : PState) (e : Node),
      st.currentToken = Token.LeftParen →
      getNextToken st = .ok st1 →
      run fuel (Call.gen OperPrec.DefaultZero) st1 = some (.ok (e, st2)) →
      (st2.currentToken ≠ Token.RightParen →
        run (fuel + 1) Call.prim st =
          some (.error (.InvalidOperator
            ("Expected " ++ tokenDebug Token.RightParen ++ ", got " ++
              tokenDebug st2.currentToken)))) ∧
      (∀ st3 : PState, st2.currentToken = Token.RightParen → getNextToken st2 = .ok st3 →
        run (fuel + 1) Call.prim st = some (.ok (e, st3)))) ∧
    evaluate "(2+3" = some (.error (.InvalidOperator "Expected RightParen, got EOF")) := by
  refine ⟨?_, by decide⟩
  intro fuel st st1 st2 e hcur hnext hgen
  constructor
  · intro hne
    simp [run, hcur, hnext, hgen, resBind, liftE, checkParen, hne]
  · intro st3 hrp hnext2
    simp [run, hcur, hnext, hgen, resBind, liftE, checkParen, hrp, hnext2]

/-- Witness for C7: in the parse of `"(2+3"`, the state after the inner
expression holds `EOF`, and `parse_number` reports the mismatched
parenthesis. -/
theorem paren_check_C7_witness :
    run 21 Call.prim ⟨Token.LeftParen, "2+3".data⟩ =
      some (.error (.InvalidOperator "Expected RightParen, got EOF")) ∧
    evaluate "(2+3" = some (.error (.InvalidOperator "Expected RightParen, got EOF")) := by
  refine ⟨?_, paren_check_C7.2⟩
  have h := ((paren_check_C7.1 20 ⟨Token.LeftParen, "2+3".data⟩
      ⟨Token.Num 2, "+3".data⟩ ⟨Token.EOF, []⟩
      (Node.Add (Node.Number 2) (Node.Number 3))
      rfl (by decide) (by decide)).1 (by decide))
  rw [h]
  rfl

/-- C8.  Once the lexer's cursor is exhausted, every further call yields
`some Token.EOF` (absence is never signalled at end of input), and `EOF`'s
precedence is the bottom level `DefaultZero`, which is what stops the
parser's recursion. -/
theorem eof_forever_C8 :
    (∀ (s : List Char) (n m : ℕ), n ≤ m → lexState s n = [] →
      (tokenizerNext (lexState s m)).1 = some Token.EOF) ∧
    Token.EOF.getOperPrec = OperPrec.DefaultZero := by
  constructor
  · intro s n m hnm hn
    have hkeep : ∀ k, lexState s (n + k) = [] := by
      intro k
      induction k with
      | zero => simpa using hn
      | succ k ih =>
          have : lexState s (n + (k + 1)) = (tokenizerNext (lexState s (n + k))).2 := rfl
          rw [this, ih]
          rfl
    have hm : lexState s m = [] := by
      have := hkeep (m - n)
      rwa [Nat.add_sub_cancel' hnm] at this
    rw [hm]
    rfl
  · rfl

/-- Witness for C8: on the empty input the cursor is exhausted immediately,
and the third call to the lexer still yields `EOF`. -/
theorem eof_forever_C8_witness :
    (tokenizerNext (lexState [] 3)).1 = some Token.EOF ∧
    Token.EOF.getOperPrec = OperPrec.DefaultZero :=
  ⟨eof_forever_C8.1 [] 0 3 (by decide) (by decide), eof_forever_C8.2⟩

/-- C10.  On the empty input, parser construction succeeds with `EOF` as the
first token, but `parse` fails with the "Unexpected token" error from
`parse_number`, so `evaluate ""` returns an error, not a number. -/
theorem empty_input_C10 :
    mkParser [] = .ok ⟨Token.EOF, []⟩ ∧
    evaluate "" = some (.error (.UnableToParse "Unexpected token")) := by
  refine ⟨by decide, by decide⟩

theorem pipeline_terminates_C9 :
    (∀ s : List Char, s ≠ [] → (tokenizerNext s).2.length < s.length) ∧
    (∀ s : String, (∃ v : ℚ, evaluate s = some (.ok v)) ∨
      (∃ e : ParseError, evaluate s = some (.error e))) := by
  refine ⟨tokenizerNext_rest_lt, ?_⟩
  intro s
  have hpc := parseChars_ne_none (s.data.filter fun c => !c.isWhitespace)
  cases hp : parseChars (s.data.filter fun c => !c.isWhitespace) with
  | none => exact absurd hp hpc
  | some r =>
      cases r with
      | error e =>
          refine Or.inr ⟨e, ?_⟩
          simp only [evaluate]
          rw [hp]
      | ok ast =>
          cases hev : eval ast with
          | error e =>
              refine Or.inr ⟨ParseError.UnableToParse "Parsing error occurred", ?_⟩
              simp only [evaluate]
              rw [hp]
              simp [hev]
          | ok v =>
              refine Or.inl ⟨v, ?_⟩
              simp only [evaluate]
              rw [hp]
              simp [hev]

theorem pipeline_terminates_C9_witness :
    (tokenizerNext ['1']).2.length < ['1'].length ∧
    ((∃ v : ℚ, evaluate "1+2" = some (.ok v)) ∨
      (∃ e : ParseError, evaluate "1+2" = some (.error e))) :=
  ⟨pipeline_terminates_C9.1 ['1'] (by decide), pipeline_terminates_C9.2 "1+2"⟩

/-- C4.  Binary operators of equal precedence group left-associatively: for
every chain `lit (op lit)*` whose operators all share one precedence level
(`+ -`, `* /`, `& |`, or `^`), the parser produces the left-nested tree
`chainTree`, e.g. `a - b - c` parses as `Subtract(Subtract(a, b), c)`. -/
theorem equal_prec_left_assoc_C4 :
    ∀ (l0 : List Char) (v0 : ℚ) (items : List ChainItem) (P : OperPrec),
      isNumLitB l0 = true → ratOfNumStr l0 = some v0 → chainOk P items →
      parseChars (l0 ++ chainRest items) =
        some (.ok (chainTree (Node.Number v0) items)) := by
  intro l0 v0 items P hl0 hv0 hok
  have hlex : tokenizerNext (l0 ++ chainRest items) = (some (Token.Num v0), chainRest items) :=
    lexNumLit _ hl0 hv0 (chainRest_headNot hok)
  have hmk : mkParser (l0 ++ chainRest items) = .ok ⟨Token.Num v0, chainRest items⟩ := by
    unfold mkParser
    rw [hlex]
  have hl0len : 1 ≤ l0.length := by
    cases l0 with
    | nil => simp [isNumLitB] at hl0
    | cons c t => simp
  have hclen := chainRest_length_ge items
  have hFge : items.length + 7 ≤ parseFuel (l0 ++ chainRest items) := by
    simp only [parseFuel, List.length_append]
    omega
  obtain ⟨f2, hf2⟩ : ∃ f2, parseFuel (l0 ++ chainRest items) = f2 + 2 :=
    ⟨parseFuel (l0 ++ chainRest items) - 2, by omega⟩
  have hgn0 : getNextToken ⟨Token.Num v0, chainRest items⟩ = .ok (chainState items) := by
    unfold getNextToken
    rw [show (PState.mk (Token.Num v0) (chainRest items)).rest = chainRest items from rfl]
    rw [chainRest_lex hok]
  have hprim := run_prim_num (f := f2) rfl hgn0
  simp only [parseChars, hmk]
  unfold parse
  rw [hf2]
  have hunfold : run (f2 + 1 + 1) (Call.gen OperPrec.DefaultZero) ⟨Token.Num v0, chainRest items⟩ =
      resBind (run (f2 + 1) Call.prim ⟨Token.Num v0, chainRest items⟩) fun x =>
        run (f2 + 1) (Call.loop OperPrec.DefaultZero x.1) x.2 := rfl
  rw [show f2 + 2 = f2 + 1 + 1 from rfl, hunfold]
  rw [show run (f2 + 1) Call.prim ⟨Token.Num v0, chainRest items⟩ =
      some (.ok (Node.Number v0, chainState items)) from hprim]
  rw [resBind_ok]
  cases items with
  | nil =>
      have hloop : run (f2 + 1) (Call.loop OperPrec.DefaultZero (Node.Number v0))
          (chainState []) = some (.ok (Node.Number v0, chainState [])) := by
        have hu : run (f2 + 1) (Call.loop OperPrec.DefaultZero (Node.Number v0))
            (chainState []) =
            (if (OperPrec.DefaultZero).rank <
                (((chainState []).currentToken).getOperPrec).rank then
              (if (chainState []).currentToken = Token.EOF then
                some (.ok (Node.Number v0, chainState []))
               else resBind (run f2 (Call.conv (Node.Number v0)) (chainState [])) fun x =>
                 run f2 (Call.loop OperPrec.DefaultZero x.1) x.2)
             else some (.ok (Node.Number v0, chainState []))) := rfl
        rw [hu, if_neg]
        simp [chainState, Token.getOperPrec, OperPrec.rank]
      rw [hloop, resBind_ok]
      rfl
  | cons it t =>
      obtain ⟨hop, hprec, _, _⟩ := hok it (List.mem_cons_self it t)
      have hP : (OperPrec.DefaultZero).rank < P.rank := by
        have := opTok_rank_pos hop
        rw [hprec] at this
        simpa [OperPrec.rank] using this
      rw [chain_loop P OperPrec.DefaultZero hP (it :: t) (f2 + 1) (Node.Number v0) hok
        (by simp only [List.length_cons] at hFge ⊢; omega)]
      rw [resBind_ok]

/-- Witness for C4: the chain `12-3-4` parses as `(12 - 3) - 4`. -/
theorem equal_prec_left_assoc_C4_witness :
    parseChars "12-3-4".data =
      some (.ok (Node.Subtract (Node.Subtract (Node.Number 12) (Node.Number 3))
        (Node.Number 4))) := by
  have h := equal_prec_left_assoc_C4 ['1', '2'] 12
    [⟨'-', ['3'], 3⟩, ⟨'-', ['4'], 4⟩] OperPrec.AddSub
    (by decide) (by decide)
    (by
      intro x hx
      simp only [List.mem_cons, List.mem_singleton] at hx
      rcases hx with rfl | rfl | h
      · exact ⟨by decide, by decide, by decide, by decide⟩
      · exact ⟨by decide, by decide, by decide, by decide⟩
      · cases h)
  have heq : ("12-3-4".data : List Char) =
      ['1', '2'] ++ chainRest [⟨'-', ['3'], 3⟩, ⟨'-', ['4'], 4⟩] := by decide
  rw [heq, h]
  rfl

end Pass
